import Mathlib

/-!
Verification of the block-store, mempool-cache and RPC-dispatch layers of the
proxy gateway.  Python source functions are shallowly embedded as executable
Lean definitions: strings become `List Char`, machine integers become
`Int`/`Nat`, database tables become lists of rows, and fallible operations
return `Option`.
-/

namespace ProxyModel

/-! ## Synthetic block hashes (`solana_blocks_db.py`)

`_generate_fake_block_hash` and `_get_fake_block_slot` are embedded over
`List Char`.  Python's `hex(n)[2:]` is `pyHex`, `str.rjust` is `rjust`,
`str.lstrip(c)` is `List.dropWhile (· = c)`, and `int(s, 16)` is
`parseHexNat`.
-/

/-- Hex digit character for a value `0..15`, matching Python's lowercase
`hex`. -/
def hexChar : Nat → Char
  | 0 => '0' | 1 => '1' | 2 => '2' | 3 => '3' | 4 => '4'
  | 5 => '5' | 6 => '6' | 7 => '7' | 8 => '8' | 9 => '9'
  | 10 => 'a' | 11 => 'b' | 12 => 'c' | 13 => 'd' | 14 => 'e' | _ => 'f'

/-- Value of a lowercase hex digit character (only applied to valid digits on
the paths we verify). -/
def hexVal : Char → Nat
  | '0' => 0 | '1' => 1 | '2' => 2 | '3' => 3 | '4' => 4
  | '5' => 5 | '6' => 6 | '7' => 7 | '8' => 8 | '9' => 9
  | 'a' => 10 | 'b' => 11 | 'c' => 12 | 'd' => 13 | 'e' => 14 | 'f' => 15
  | _ => 0

/-- Python `hex(n)[2:]`: minimal lowercase hex digits, `"0"` for zero. -/
def pyHex (n : Nat) : List Char :=
  if n = 0 then ['0'] else ((Nat.digits 16 n).map hexChar).reverse

/-- Python `str.rjust(w, c)`: left-pad with `c` up to width `w`. -/
def rjust (l : List Char) (w : Nat) (c : Char) : List Char :=
  List.replicate (w - l.length) c ++ l

/-- Python `int(s, 16)` on a string of hex digits. -/
def parseHexNat (l : List Char) : Nat :=
  l.foldl (fun a c => 16 * a + hexVal c) 0

/-- `SolBlocksDB._generate_fake_block_hash`: negative slots give the all-zero
hash; otherwise the hex digits are right-padded with `'0'` to an even length,
prefixed by the `"00"` sentinel and left-padded with `'f'` to 64 hex chars. -/
def generateFakeBlockHash (blockSlot : Int) : List Char :=
  if blockSlot < 0 then '0' :: 'x' :: List.replicate 64 '0'
  else
    let hexNum := pyHex blockSlot.toNat
    let numLen := hexNum.length
    let padded := '0' :: '0' :: rjust hexNum (((numLen >>> 1) + numLen % 2) <<< 1) '0'
    '0' :: 'x' :: rjust padded 64 'f'

/-- `SolBlocksDB._get_fake_block_slot`: strip `"0x"` and the leading run of
`'f'`; require at most 12 remaining chars starting with `"00"`; the rest
(leading zeros stripped) is the hex slot, empty meaning slot `0`. -/
def getFakeBlockSlot (hashNumber : List Char) : Option Int :=
  let h1 := (hashNumber.drop 2).dropWhile (fun c => c = 'f')
  if h1.length > 12 ∨ h1.take 2 ≠ ['0', '0'] then none
  else
    let h2 := h1.dropWhile (fun c => c = '0')
    if h2.isEmpty then some 0
    else some (parseHexNat h2 : Nat)

/-- The synthetic-hash pattern in the words of the claim: after stripping
`"0x"` and the leading `'f'` run, at most 12 hex chars remain and they start
with `"00"`. -/
def syntheticPattern (hashNumber : List Char) : Prop :=
  ((hashNumber.drop 2).dropWhile (fun c => c = 'f')).length ≤ 12 ∧
  ((hashNumber.drop 2).dropWhile (fun c => c = 'f')).take 2 = ['0', '0']

instance (h : List Char) : Decidable (syntheticPattern h) := by
  unfold syntheticPattern; infer_instance

lemma hexVal_hexChar {d : Nat} (hd : d < 16) : hexVal (hexChar d) = d := by
  interval_cases d <;> rfl

lemma hexChar_ne_zero_char {d : Nat} (hd : d < 16) (h0 : d ≠ 0) : hexChar d ≠ '0' := by
  interval_cases d <;> simp_all <;> decide

lemma parseHexNat_eq (l : List Char) :
    parseHexNat l = Nat.ofDigits 16 ((l.map hexVal).reverse) := by
  suffices h : ∀ (l : List Char) (a : Nat),
      l.foldl (fun a c => 16 * a + hexVal c) a
        = a * 16 ^ l.length + Nat.ofDigits 16 ((l.map hexVal).reverse) by
    simpa [parseHexNat] using h l 0
  intro l
  induction l with
  | nil => intro a; simp [Nat.ofDigits]
  | cons c t ih =>
    intro a
    simp only [List.foldl_cons, ih, List.map_cons, List.reverse_cons,
      Nat.ofDigits_append, List.length_cons, List.length_reverse,
      List.length_map, Nat.ofDigits_singleton]
    ring

lemma parseHexNat_pyHex (n : Nat) : parseHexNat (pyHex n) = n := by
  by_cases hn : n = 0
  · subst hn; rfl
  · have hmap : (Nat.digits 16 n).map (fun d => hexVal (hexChar d)) = Nat.digits 16 n := by
      rw [List.map_congr_left (g := id), List.map_id]
      intro d hd
      exact hexVal_hexChar (Nat.digits_lt_base (by norm_num) hd)
    rw [pyHex, if_neg hn, parseHexNat_eq, List.map_reverse, List.reverse_reverse,
      List.map_map]
    rw [show (hexVal ∘ hexChar) = fun d => hexVal (hexChar d) from rfl, hmap]
    exact Nat.ofDigits_digits 16 n

lemma dropWhile_replicate_append (p : Char → Bool) (c : Char) (hp : p c = true)
    (k : Nat) (l : List Char) :
    (List.replicate k c ++ l).dropWhile p = l.dropWhile p := by
  induction k with
  | zero => simp
  | succ k ih => simp [List.replicate_succ, List.dropWhile_cons, hp, ih]

lemma dropWhile_cons_of_neg (p : Char → Bool) (c : Char) (hp : p c = false)
    (l : List Char) : (c :: l).dropWhile p = c :: l := by
  simp [List.dropWhile_cons, hp]

lemma generateFakeBlockHash_shape (s : Nat) (hs : s ≠ 0) :
    generateFakeBlockHash (s : Int)
      = '0' :: 'x' ::
          (List.replicate (64 - (2 + ((Nat.digits 16 s).length % 2 + (Nat.digits 16 s).length))) 'f' ++
            ('0' :: '0' ::
              (List.replicate ((Nat.digits 16 s).length % 2) '0' ++ pyHex s))) := by
  have hneg : ¬ ((s : Int) < 0) := not_lt.mpr (Int.natCast_nonneg s)
  have hlen : (pyHex s).length = (Nat.digits 16 s).length := by
    simp [pyHex, hs]
  set L := (Nat.digits 16 s).length with hLdef
  have hwidth : ((L >>> 1) + L % 2) <<< 1 = L + L % 2 := by
    rw [Nat.shiftRight_one, Nat.shiftLeft_eq]
    omega
  simp only [generateFakeBlockHash, if_neg hneg, Int.toNat_natCast, hlen, hwidth, rjust,
    List.length_cons, List.length_append, List.length_replicate]
  have h1 : L + L % 2 - L = L % 2 := by omega
  rw [h1]
  have h2 : L % 2 + L + 1 + 1 = 2 + (L % 2 + L) := by omega
  rw [h2]

lemma getFakeBlockSlot_generateFakeBlockHash (s : Nat) (hs : s ≠ 0) :
    getFakeBlockSlot (generateFakeBlockHash (s : Int))
      = if (Nat.digits 16 s).length ≤ 10 then some (s : Int) else none := by
  have hne : Nat.digits 16 s ≠ [] := Nat.digits_ne_nil_iff_ne_zero.mpr hs
  set L := (Nat.digits 16 s).length with hLdef
  have hL1 : 1 ≤ L := List.length_pos.mpr hne
  rw [generateFakeBlockHash_shape s hs]
  have hdrop :
      (('0' :: 'x' ::
          (List.replicate (64 - (2 + (L % 2 + L))) 'f' ++
            ('0' :: '0' :: (List.replicate (L % 2) '0' ++ pyHex s)))).drop 2).dropWhile
          (fun c => c = 'f')
        = '0' :: '0' :: (List.replicate (L % 2) '0' ++ pyHex s) := by
    rw [List.drop_succ_cons, List.drop_succ_cons, List.drop_zero,
      dropWhile_replicate_append _ 'f' (by decide),
      dropWhile_cons_of_neg _ '0' (by decide)]
  rw [getFakeBlockSlot]
  simp only [hdrop]
  have hlen2 : ('0' :: '0' :: (List.replicate (L % 2) '0' ++ pyHex s)).length
      = 2 + (L % 2 + L) := by
    simp [pyHex, hs, hLdef]
    omega
  by_cases hsmall : L ≤ 10
  · have hguard : ¬ (('0' :: '0' :: (List.replicate (L % 2) '0' ++ pyHex s)).length > 12 ∨
        ('0' :: '0' :: (List.replicate (L % 2) '0' ++ pyHex s)).take 2 ≠ ['0', '0']) := by
      rw [hlen2]
      simp only [List.take_succ_cons, List.take_zero, not_or, not_not]
      exact ⟨by omega, trivial⟩
    rw [if_neg hguard, if_pos hsmall]
    have hpy : pyHex s
        = hexChar ((Nat.digits 16 s).getLast hne) ::
            ((Nat.digits 16 s).dropLast.map hexChar).reverse := by
      have h := List.dropLast_append_getLast hne
      calc pyHex s = ((Nat.digits 16 s).map hexChar).reverse := by rw [pyHex, if_neg hs]
        _ = (((Nat.digits 16 s).dropLast ++ [(Nat.digits 16 s).getLast hne]).map hexChar).reverse := by
            rw [h]
        _ = hexChar ((Nat.digits 16 s).getLast hne) ::
              ((Nat.digits 16 s).dropLast.map hexChar).reverse := by simp
    have hdne : hexChar ((Nat.digits 16 s).getLast hne) ≠ '0' :=
      hexChar_ne_zero_char
        (Nat.digits_lt_base (by norm_num) (List.getLast_mem hne))
        (Nat.getLast_digit_ne_zero 16 hs)
    have hcons : ∀ l : List Char,
        ('0' :: l).dropWhile (fun c => c = '0') = l.dropWhile (fun c => c = '0') := by
      intro l; simp [List.dropWhile_cons]
    have hdw : ('0' :: '0' :: (List.replicate (L % 2) '0' ++ pyHex s)).dropWhile
        (fun c => c = '0') = pyHex s := by
      rw [hcons, hcons, dropWhile_replicate_append _ '0' (by decide), hpy,
        dropWhile_cons_of_neg _ _ (decide_eq_false hdne)]
    rw [hdw]
    have hemp : (pyHex s).isEmpty = false := by rw [hpy]; rfl
    simp [hemp, parseHexNat_pyHex]
  · rw [if_neg hsmall, if_pos]
    left
    rw [hlen2]
    omega

lemma digits16_len_le {s : Nat} (hs : s ≠ 0) (h : s < 2 ^ 40) :
    (Nat.digits 16 s).length ≤ 10 := by
  rw [Nat.digits_len 16 s (by norm_num) hs]
  have h16 : s < 16 ^ 10 := by
    have : (16 : Nat) ^ 10 = 2 ^ 40 := by norm_num
    omega
  have := (Nat.lt_pow_iff_log_lt (b := 16) (by norm_num) hs).mp h16
  omega

lemma digits16_len_ge {s : Nat} (h : 2 ^ 40 ≤ s) :
    11 ≤ (Nat.digits 16 s).length := by
  have hs : s ≠ 0 := by
    have : (0 : Nat) < 2 ^ 40 := by norm_num
    omega
  rw [Nat.digits_len 16 s (by norm_num) hs]
  have h16 : 16 ^ 10 ≤ s := by
    have : (16 : Nat) ^ 10 = 2 ^ 40 := by norm_num
    omega
  have := (Nat.pow_le_iff_le_log (b := 16) (by norm_num) hs).mp h16
  omega

/-! ## Synthetic block time and block-store mutations (`solana_blocks_db.py`)

The `solana_blocks` table is a list of rows.  `_generate_fake_block_time`
issues one UNION query for the nearest stored row at `slot ≤ s` and the
nearest at `slot ≥ s`; the fetched row is modelled with the lower neighbour
taking precedence, which is the reading order of the Python code.  `math.ceil
(d * 0.4)` is modelled exactly as `⌈2d/5⌉` (the float product rounds to the
exact value for every realistic slot difference). -/

/-- One stored `(block_slot, block_time)` pair of the `solana_blocks` table
(rows with a NULL time are outside this model). -/
abbrev TimeTable := List (Int × Int)

def nearestLowerBlock (tbl : TimeTable) (s : Int) : Option (Int × Int) :=
  (tbl.filter (fun r => r.1 ≤ s)).argmax (fun r => r.1)

def nearestUpperBlock (tbl : TimeTable) (s : Int) : Option (Int × Int) :=
  (tbl.filter (fun r => s ≤ r.1)).argmin (fun r => r.1)

/-- `math.ceil(d * 0.4)` over the integers: `⌈2d/5⌉ = ⌊(2d+4)/5⌋`. -/
def ceil04 (d : Int) : Int := (2 * d + 4).ediv 5

/-- `SolBlocksDB._generate_fake_block_time` with `_one_block_sec = 0.4`. -/
def generateFakeBlockTime (tbl : TimeTable) (genesis : Int) (s : Int) : Int :=
  match nearestLowerBlock tbl s with
  | some b => b.2 + ceil04 (s - b.1)
  | none =>
    match nearestUpperBlock tbl s with
    | some n => n.2 - ceil04 (n.1 - s)
    | none => ceil04 s + genesis

/-- A full row of the `solana_blocks` table as used by the mutating
statements. -/
structure BlockRow where
  block_slot : Int
  block_hash : List Char
  block_time : Int
  parent_block_slot : Int
  is_finalized : Bool
  is_active : Bool
deriving DecidableEq

/-- The returned `SolBlockInfo` record. -/
structure SolBlockInfo where
  block_slot : Int
  block_hash : Option (List Char) := none
  block_time : Option Int := none
  parent_block_hash : Option (List Char) := none
  is_finalized : Bool := false
deriving DecidableEq

/-- `_check_block_hash`: Python `block_hash or _generate_fake_block_hash(..)`
(`None` and the empty string are falsy). -/
def checkBlockHash (slot : Int) (h : Option (List Char)) : List Char :=
  match h with
  | some v => if v = [] then generateFakeBlockHash slot else v
  | none => generateFakeBlockHash slot

/-- `_check_block_time`: Python `block_time or _generate_fake_block_time(..)`
(`None` and `0` are falsy). -/
def checkBlockTime (tbl : TimeTable) (genesis : Int) (slot : Int) (t : Option Int) : Int :=
  match t with
  | some v => if v = 0 then generateFakeBlockTime tbl genesis slot else v
  | none => generateFakeBlockTime tbl genesis slot

/-- The seven columns fetched for `_block_from_value`. -/
structure BlockValueRow where
  block_slot : Int
  block_hash : Option (List Char)
  block_time : Option Int
  parent_block_slot : Int
  is_finalized : Bool
  is_active : Bool
  parent_block_hash : Option (List Char)

/-- `SolBlocksDB._block_from_value`. -/
def blockFromValue (tbl : TimeTable) (genesis : Int) (blockSlot : Option Int)
    (value : Option BlockValueRow) : SolBlockInfo :=
  match value with
  | none =>
    match blockSlot with
    | none => { block_slot := 0 }
    | some slot =>
      { block_slot := slot
        block_hash := some (generateFakeBlockHash slot)
        block_time := some (generateFakeBlockTime tbl genesis slot)
        parent_block_hash := some (generateFakeBlockHash (slot - 1)) }
  | some v =>
    let slot := blockSlot.getD v.block_slot
    { block_slot := slot
      block_hash := some (checkBlockHash slot v.block_hash)
      block_time := some (checkBlockTime tbl genesis slot v.block_time)
      is_finalized := v.is_finalized
      parent_block_hash := some (checkBlockHash (slot - 1) v.parent_block_hash) }

/-- `SolBlocksDB.set_block_list`: bulk insert writing `is_finalized` into both
the `is_finalized` and `is_active` columns. -/
def setBlockList (tbl : List BlockRow) (blocks : List BlockRow) : List BlockRow :=
  tbl ++ blocks.map (fun b => { b with is_active := b.is_finalized })

/-- `SolBlocksDB.finalize_block_list`: mark the listed slots finalized and
active, then delete the inactive rows strictly between `base_block_slot` and
the LAST element of the slot list (`block_slot_list[-1]`; the Python code
raises on an empty list, which is outside this model). -/
def finalizeBlockList (tbl : List BlockRow) (base : Int) (slots : List Int) :
    List BlockRow :=
  let lastS := slots.getLast?.getD 0
  (tbl.map (fun r =>
      if r.block_slot ∈ slots then { r with is_finalized := true, is_active := true } else r)).filter
    (fun r => decide (¬ (base < r.block_slot ∧ r.block_slot < lastS ∧ r.is_active = false)))

/-- `SolBlocksDB.activate_block_list`: deactivate everything above
`base_block_slot`, then activate the listed slots. -/
def activateBlockList (tbl : List BlockRow) (base : Int) (slots : List Int) :
    List BlockRow :=
  (tbl.map (fun r => if base < r.block_slot then { r with is_active := false } else r)).map
    (fun r => if r.block_slot ∈ slots then { r with is_active := true } else r)

/-- C1 (amended): for every slot `s` with `0 ≤ s < 2^40`, decoding the
synthetic block hash generated for `s` recovers `s`; for every hash string
that does not match the synthetic pattern (a leading run of `'f'`, then
`"00"`, with at most 12 hex chars remaining after stripping the `'f'` run),
`_get_fake_block_slot` returns `None`.  (The claim's bound `2^48` fails: the
12-char budget of the decoder also covers the two `"00"` sentinel chars, so
only 10 hex digits — slots below `2^40` — survive the round trip.) -/
theorem spec_c1_synthetic_hash_roundtrip :
    (∀ s : Nat, s < 2 ^ 40 →
      getFakeBlockSlot (generateFakeBlockHash (s : Int)) = some (s : Int)) ∧
    (∀ h : List Char, ¬ syntheticPattern h → getFakeBlockSlot h = none) := by
  constructor
  · intro s hlt
    by_cases hs : s = 0
    · subst hs; decide
    · rw [getFakeBlockSlot_generateFakeBlockHash s hs, if_pos (digits16_len_le hs hlt)]
  · intro h hp
    simp only [syntheticPattern, not_and_or, not_le] at hp
    simp only [getFakeBlockSlot]
    rw [if_pos]
    rcases hp with h1 | h1
    · exact Or.inl h1
    · exact Or.inr h1

/-- C1 counterexample: the claim quantifies over all slots below `2^48`, but
already at slot `2^40` the generated hash fails to decode: after stripping
the `'f'` run, `"00"` plus the padded 12 hex digits leave 14 chars, more than
the decoder's limit of 12, so `_get_fake_block_slot` returns `None`. -/
theorem spec_c1_roundtrip_fails_at_2_pow_40 :
    (0 : Int) ≤ 2 ^ 40 ∧ (2 ^ 40 : Int) < 2 ^ 48 ∧
    getFakeBlockSlot (generateFakeBlockHash (2 ^ 40 : Int)) = none := by
  refine ⟨by norm_num, by norm_num, ?_⟩
  have h : ((2 ^ 40 : Nat) : Int) = (2 ^ 40 : Int) := by norm_num
  rw [← h, getFakeBlockSlot_generateFakeBlockHash _ (by norm_num), if_neg]
  have := digits16_len_ge (s := 2 ^ 40) le_rfl
  omega

/-- Witness for C1: round trip at slot `0x1234 = 4660`, and a non-synthetic
hash (64 `'1'` chars) decodes to `None`. -/
theorem spec_c1_witness :
    getFakeBlockSlot (generateFakeBlockHash ((4660 : Nat) : Int)) = some ((4660 : Nat) : Int) ∧
    getFakeBlockSlot ('0' :: 'x' :: List.replicate 64 '1') = none :=
  ⟨spec_c1_synthetic_hash_roundtrip.1 4660 (by norm_num),
   spec_c1_synthetic_hash_roundtrip.2 _ (by decide)⟩

/-- C5 counterexample: `_generate_fake_block_hash(0)` is NOT the all-zero
hash; the zero slot encodes as `"0000"` left-padded with 60 `'f'` chars (only
negative slots short-circuit to the all-zero hash). -/
theorem spec_c5_zero_slot_hash_not_all_zero :
    generateFakeBlockHash 0 = '0' :: 'x' :: (List.replicate 60 'f' ++ ['0', '0', '0', '0']) ∧
    generateFakeBlockHash 0 ≠ '0' :: 'x' :: List.replicate 64 '0' := by
  constructor <;> decide

/-- C5 (amended): `_generate_fake_block_hash(0)` returns `'0x'` + 60 `'f'`
chars + `"0000"` (not the all-zero hash); every negative slot returns the
all-zero hash; and the `SolBlockInfo` synthesized for slot `0` has
`parent_block_hash` equal to the synthetic hash of slot `-1`, i.e. all
zeros. -/
theorem spec_c5_edge_hashes :
    generateFakeBlockHash 0 = '0' :: 'x' :: (List.replicate 60 'f' ++ ['0', '0', '0', '0']) ∧
    (∀ s : Int, s < 0 → generateFakeBlockHash s = '0' :: 'x' :: List.replicate 64 '0') ∧
    (∀ (tbl : TimeTable) (genesis : Int),
      (blockFromValue tbl genesis (some 0) none).parent_block_hash
        = some ('0' :: 'x' :: List.replicate 64 '0')) := by
  refine ⟨by decide, ?_, ?_⟩
  · intro s hs
    rw [generateFakeBlockHash, if_pos hs]
  · intro tbl genesis
    show some (generateFakeBlockHash (0 - 1)) = _
    rw [generateFakeBlockHash, if_pos (by norm_num)]

/-- Witness for C5: the negative-slot clause at slot `-5` and the
parent-hash clause at the empty table. -/
theorem spec_c5_witness :
    generateFakeBlockHash (-5) = '0' :: 'x' :: List.replicate 64 '0' ∧
    (blockFromValue [] 0 (some 0) none).parent_block_hash
      = some ('0' :: 'x' :: List.replicate 64 '0') :=
  ⟨spec_c5_edge_hashes.2.1 (-5) (by norm_num), spec_c5_edge_hashes.2.2 [] 0⟩

lemma nearestLowerBlock_spec {tbl : TimeTable} {s : Int} {b : Int × Int}
    (h : nearestLowerBlock tbl s = some b) : b ∈ tbl ∧ b.1 ≤ s := by
  have hm : b ∈ tbl.filter (fun r => r.1 ≤ s) := List.argmax_mem h
  have := List.mem_filter.mp hm
  exact ⟨this.1, by simpa using this.2⟩

lemma nearestLowerBlock_ge {tbl : TimeTable} {s : Int} {b r : Int × Int}
    (h : nearestLowerBlock tbl s = some b) (hr : r ∈ tbl) (hrs : r.1 ≤ s) :
    r.1 ≤ b.1 :=
  List.le_of_mem_argmax (List.mem_filter.mpr ⟨hr, by simpa⟩) h

lemma nearestUpperBlock_spec {tbl : TimeTable} {s : Int} {b : Int × Int}
    (h : nearestUpperBlock tbl s = some b) : b ∈ tbl ∧ s ≤ b.1 := by
  have hm : b ∈ tbl.filter (fun r => s ≤ r.1) := List.argmin_mem h
  have := List.mem_filter.mp hm
  exact ⟨this.1, by simpa using this.2⟩

lemma ceil04_zero : ceil04 0 = 0 := by decide

lemma ceil04_nonneg {d : Int} (h : 0 ≤ d) : 0 ≤ ceil04 d :=
  Int.ediv_nonneg (by omega) (by norm_num)

lemma ceil04_mono {a b : Int} (h : a ≤ b) : ceil04 a ≤ ceil04 b :=
  Int.ediv_le_ediv (by norm_num) (by omega)

/-- C2 (amended): when both stored neighbours `s_lower ≤ s ≤ s_upper` exist
(with well-defined times: equal slots carry equal times), the synthesized
time is computed from the lower neighbour only, as
`t_lower + ceil(0.4·(s − s_lower))`.  It equals `t_lower` at `s = s_lower`
and `t_upper` at `s = s_upper`, and it is bounded below by `t_lower`; it is
bounded above by `t_upper` only under the extra proviso
`ceil(0.4·(s_upper − s_lower)) ≤ t_upper − t_lower`, i.e. when the stored
times are at least 0.4 s-per-slot apart — the unconditional upper bound of
the claim is false. -/
theorem spec_c2_fake_time (tbl : TimeTable) (genesis s : Int) (bl bu : Int × Int)
    (hl : nearestLowerBlock tbl s = some bl)
    (hu : nearestUpperBlock tbl s = some bu)
    (huniq : ∀ r1 ∈ tbl, ∀ r2 ∈ tbl, r1.1 = r2.1 → r1.2 = r2.2) :
    generateFakeBlockTime tbl genesis s = bl.2 + ceil04 (s - bl.1) ∧
    bl.2 ≤ generateFakeBlockTime tbl genesis s ∧
    (ceil04 (bu.1 - bl.1) ≤ bu.2 - bl.2 →
      generateFakeBlockTime tbl genesis s ≤ bu.2) ∧
    (s = bl.1 → generateFakeBlockTime tbl genesis s = bl.2) ∧
    (s = bu.1 → generateFakeBlockTime tbl genesis s = bu.2) := by
  have hval : generateFakeBlockTime tbl genesis s = bl.2 + ceil04 (s - bl.1) := by
    rw [generateFakeBlockTime, hl]
  obtain ⟨hblmem, hbls⟩ := nearestLowerBlock_spec hl
  obtain ⟨hbumem, hsbu⟩ := nearestUpperBlock_spec hu
  refine ⟨hval, ?_, ?_, ?_, ?_⟩
  · rw [hval]
    have := ceil04_nonneg (d := s - bl.1) (by omega)
    omega
  · intro hspan
    rw [hval]
    have := ceil04_mono (a := s - bl.1) (b := bu.1 - bl.1) (by omega)
    omega
  · intro hes
    rw [hval, hes, sub_self, ceil04_zero, add_zero]
  · intro heu
    have hble : bu.1 ≤ bl.1 := nearestLowerBlock_ge hl hbumem (by omega)
    have hbl1 : bl.1 = s := by omega
    have htime : bl.2 = bu.2 := huniq bl hblmem bu hbumem (by omega)
    rw [hval, hbl1, sub_self, ceil04_zero, add_zero]
    exact htime

/-- C2 counterexample: with stored neighbours at slots `0` and `10` that
carry the SAME time `100`, the time synthesized for slot `5` is
`100 + ceil(0.4·5) = 102`, strictly above the interval `[100, 100]` required
by the claim. -/
theorem spec_c2_time_leaves_interval :
    nearestLowerBlock [((0 : Int), (100 : Int)), (10, 100)] 5 = some (0, 100) ∧
    nearestUpperBlock [((0 : Int), (100 : Int)), (10, 100)] 5 = some (10, 100) ∧
    generateFakeBlockTime [((0 : Int), (100 : Int)), (10, 100)] 0 5 = 102 ∧
    ¬ (generateFakeBlockTime [((0 : Int), (100 : Int)), (10, 100)] 0 5 ≤ 100) := by
  refine ⟨by decide, by decide, by decide, by decide⟩

/-- Witness for C2: neighbours at slots `0` and `10` with times `100` and
`104` (exact 0.4 s spacing); the synthesized times at slots `4`, `0` and `10`
are `102`, `100` and `104`. -/
theorem spec_c2_witness :
    generateFakeBlockTime [((0 : Int), (100 : Int)), (10, 104)] 7 4 = 102 ∧
    generateFakeBlockTime [((0 : Int), (100 : Int)), (10, 104)] 7 0 = 100 ∧
    generateFakeBlockTime [((0 : Int), (100 : Int)), (10, 104)] 7 10 = 104 := by
  refine ⟨?_, ?_, ?_⟩
  · have h := spec_c2_fake_time [((0 : Int), (100 : Int)), (10, 104)] 7 4 (0, 100) (10, 104)
      (by decide) (by decide) (by decide)
    rw [h.1]; decide
  · have h := spec_c2_fake_time [((0 : Int), (100 : Int)), (10, 104)] 7 0 (0, 100) (0, 100)
      (by decide) (by decide) (by decide)
    exact h.2.2.2.1 (by decide)
  · have h := spec_c2_fake_time [((0 : Int), (100 : Int)), (10, 104)] 7 10 (10, 104) (10, 104)
      (by decide) (by decide) (by decide)
    exact h.2.2.2.2 (by decide)

/-- C3 (amended): after `activate_block_list(base, S)`, among rows with
`slot > base` exactly those with `slot ∈ S` are active; after
`finalize_block_list(base, S)` (with `S` nonempty), every row with
`slot ∈ S` is finalized and active, and no inactive row remains with
`base < slot < last(S)` — the LAST element of `S` (`block_slot_list[-1]`),
which equals `max(S)` only when `S` is listed in ascending order. -/
theorem spec_c3_branch_switch (tbl : List BlockRow) (base : Int) (S : List Int)
    (_hS : S ≠ []) :
    (∀ r ∈ activateBlockList tbl base S, base < r.block_slot →
      (r.is_active = true ↔ r.block_slot ∈ S)) ∧
    (∀ r ∈ finalizeBlockList tbl base S, r.block_slot ∈ S →
      r.is_finalized = true ∧ r.is_active = true) ∧
    (∀ r ∈ finalizeBlockList tbl base S,
      ¬ (base < r.block_slot ∧ r.block_slot < S.getLast?.getD 0 ∧ r.is_active = false)) := by
  refine ⟨?_, ?_, ?_⟩
  · intro r hr hbase
    simp only [activateBlockList, List.map_map, List.mem_map, Function.comp] at hr
    obtain ⟨r0, hr0, rfl⟩ := hr
    by_cases h1 : base < r0.block_slot <;> by_cases h2 : r0.block_slot ∈ S <;>
      simp [h1, h2] at hbase ⊢
  · intro r hr hmem
    simp only [finalizeBlockList, List.mem_filter] at hr
    obtain ⟨r0, hr0, rfl⟩ := List.mem_map.mp hr.1
    by_cases h2 : r0.block_slot ∈ S <;> simp_all
  · intro r hr
    simp only [finalizeBlockList, List.mem_filter] at hr
    exact of_decide_eq_true hr.2

/-- C3 counterexample: `finalize_block_list` deletes inactive rows below the
LAST listed slot, not below `max(S)`: with `S = [10, 5]` the inactive row at
slot `7` survives even though `base < 7 < max(S) = 10`. -/
theorem spec_c3_delete_uses_last_not_max :
    ((10 : Int) ∈ ([10, 5] : List Int) ∧ ∀ x ∈ ([10, 5] : List Int), x ≤ 10) ∧
    (⟨7, [], 0, 0, false, false⟩ : BlockRow) ∈
      finalizeBlockList [⟨7, [], 0, 0, false, false⟩] 0 [10, 5] ∧
    (0 : Int) < 7 ∧ (7 : Int) < 10 ∧
    (⟨7, [], 0, 0, false, false⟩ : BlockRow).is_active = false := by
  decide

/-- Witness for C3: a finalized-active row at slot `5` is deactivated by
`activate_block_list(0, [7])`; `finalize_block_list(0, [10])` marks the row
at slot `10` finalized and active and leaves no inactive row in range. -/
theorem spec_c3_witness :
    ((⟨5, [], 0, 0, true, false⟩ : BlockRow).is_active = true ↔
      (⟨5, [], 0, 0, true, false⟩ : BlockRow).block_slot ∈ ([7] : List Int)) ∧
    ((⟨10, [], 0, 0, true, true⟩ : BlockRow).is_finalized = true ∧
      (⟨10, [], 0, 0, true, true⟩ : BlockRow).is_active = true) ∧
    ¬ ((0 : Int) < (⟨10, [], 0, 0, true, true⟩ : BlockRow).block_slot ∧
      (⟨10, [], 0, 0, true, true⟩ : BlockRow).block_slot <
        ([10] : List Int).getLast?.getD 0 ∧
      (⟨10, [], 0, 0, true, true⟩ : BlockRow).is_active = false) :=
  ⟨(spec_c3_branch_switch [⟨5, [], 0, 0, true, true⟩] 0 [7] (by decide)).1
      ⟨5, [], 0, 0, true, false⟩ (by decide) (by decide),
   (spec_c3_branch_switch [⟨10, [], 0, 0, false, false⟩] 0 [10] (by decide)).2.1
      ⟨10, [], 0, 0, true, true⟩ (by decide) (by decide),
   (spec_c3_branch_switch [⟨10, [], 0, 0, false, false⟩] 0 [10] (by decide)).2.2
      ⟨10, [], 0, 0, true, true⟩ (by decide)⟩

/-- The row invariant `is_finalized ⇒ is_active`. -/
def finActInv (tbl : List BlockRow) : Prop :=
  ∀ r ∈ tbl, r.is_finalized = true → r.is_active = true

instance (tbl : List BlockRow) : Decidable (finActInv tbl) := by
  unfold finActInv; infer_instance

/-- C4 (amended): `is_finalized ⇒ is_active` is preserved by
`set_block_list` and `finalize_block_list` for arbitrary arguments, but by
`activate_block_list(base, S)` only under the proviso that every finalized
row above `base` has its slot listed in `S`: the first UPDATE of
`activate_block_list` deactivates every row above `base`, finalized ones
included, and the second reactivates only the slots in `S`. -/
theorem spec_c4_finalized_implies_active :
    (∀ tbl blocks, finActInv tbl → finActInv (setBlockList tbl blocks)) ∧
    (∀ tbl base S, finActInv tbl → finActInv (finalizeBlockList tbl base S)) ∧
    (∀ tbl base S, finActInv tbl →
      (∀ r ∈ tbl, r.is_finalized = true → base < r.block_slot → r.block_slot ∈ S) →
      finActInv (activateBlockList tbl base S)) := by
  refine ⟨?_, ?_, ?_⟩
  · intro tbl blocks hinv r hr hfin
    rcases List.mem_append.mp hr with h | h
    · exact hinv r h hfin
    · obtain ⟨b, hb, rfl⟩ := List.mem_map.mp h
      simpa using hfin
  · intro tbl base S hinv r hr hfin
    simp only [finalizeBlockList, List.mem_filter] at hr
    obtain ⟨r0, hr0, rfl⟩ := List.mem_map.mp hr.1
    by_cases h2 : r0.block_slot ∈ S
    · simp [h2]
    · simp only [h2, if_neg, ite_false] at hfin ⊢
      exact hinv r0 hr0 hfin
  · intro tbl base S hinv hprov r hr hfin
    simp only [activateBlockList, List.map_map, List.mem_map, Function.comp] at hr
    obtain ⟨r0, hr0, rfl⟩ := hr
    by_cases h1 : base < r0.block_slot <;> by_cases h2 : r0.block_slot ∈ S <;>
      simp [h1, h2] at hfin ⊢
    · exact absurd (hprov r0 hr0 hfin h1) h2
    · exact hinv r0 hr0 hfin

/-- C4 counterexample: a single finalized-active row at slot `5` and the
call `activate_block_list(0, [7])` leave the table with a row that is
finalized but inactive, so the invariant does NOT survive arbitrary
`activate_block_list` calls. -/
theorem spec_c4_activate_breaks_invariant :
    finActInv [⟨5, [], 0, 0, true, true⟩] ∧
    ¬ finActInv (activateBlockList [⟨5, [], 0, 0, true, true⟩] 0 [7]) := by
  decide

/-- Witness for C4: the three preservation clauses at concrete tables. -/
theorem spec_c4_witness :
    finActInv (setBlockList [] [⟨3, [], 0, 0, true, false⟩]) ∧
    finActInv (finalizeBlockList [⟨4, [], 0, 0, false, false⟩] 0 [4]) ∧
    finActInv (activateBlockList [⟨5, [], 0, 0, true, true⟩] 0 [5]) :=
  ⟨spec_c4_finalized_implies_active.1 [] [⟨3, [], 0, 0, true, false⟩] (by decide),
   spec_c4_finalized_implies_active.2.1 [⟨4, [], 0, 0, false, false⟩] 0 [4] (by decide),
   spec_c4_finalized_implies_active.2.2 [⟨5, [], 0, 0, true, true⟩] 0 [5] (by decide)
      (by decide)⟩

/-! ## Mempool transaction cache (`mempool_neon_tx_dict.py`)

`MPTxDict` holds a signature→item dict and an expiry deque.  The dict is
modelled as a key-unique association list, the deque as a list with the
front at the head.  `_get_time()` (`math.ceil(time.time())`, whole seconds)
is passed explicitly to each operation as `now`; transactions are abstract
(`Nat`), errors are the `str(exc)` strings. -/

/-- `MPTxDict._Item`. -/
structure MPItem where
  last_time : Nat
  neon_sig : String
  neon_tx : Nat
  error : Option String
deriving DecidableEq

/-- State of `MPTxDict`: `_neon_tx_dict` and `_neon_tx_queue`. -/
structure MPTxDict where
  dict : List (String × MPItem)
  queue : List MPItem
deriving DecidableEq

def emptyMPTxDict : MPTxDict := ⟨[], []⟩

/-- Python dict lookup `d.get(k, None)`. -/
def dictLookup : List (String × MPItem) → String → Option MPItem
  | [], _ => none
  | p :: t, k => if p.1 = k then some p.2 else dictLookup t k

/-- Python dict assignment `d[k] = v` (key-unique association list). -/
def dictInsert (d : List (String × MPItem)) (k : String) (v : MPItem) :
    List (String × MPItem) :=
  d.filter (fun p => p.1 ≠ k) ++ [(k, v)]

/-- Python `d.pop(k, None)` (the removal effect). -/
def dictPop (d : List (String × MPItem)) (k : String) : List (String × MPItem) :=
  d.filter (fun p => p.1 ≠ k)

/-- `MPTxDict.add` executed when `_get_time()` returns `now`: append the item
to the queue and store it in the dict. -/
def MPTxDict.add (st : MPTxDict) (sig : String) (tx : Nat) (exc : Option String)
    (now : Nat) : MPTxDict :=
  let item : MPItem := ⟨now, sig, tx, exc⟩
  ⟨dictInsert st.dict sig item, st.queue ++ [item]⟩

/-- `MPTxDict.get`: the stored error if present, else the transaction,
else `None`. -/
def MPTxDict.get (st : MPTxDict) (sig : String) : Option (String ⊕ Nat) :=
  match dictLookup st.dict sig with
  | none => none
  | some item =>
    match item.error with
    | some e => some (Sum.inl e)
    | none => some (Sum.inr item.neon_tx)

/-- The `while` loop of `MPTxDict.clear`: pop items from the queue front
while they are older than the cutoff, removing each from the dict. -/
def clearLoop : List MPItem → List (String × MPItem) → Nat →
    List MPItem × List (String × MPItem)
  | [], d, _ => ([], d)
  | i :: q, d, cutoff =>
    if i.last_time < cutoff then clearLoop q (dictPop d i.neon_sig) cutoff
    else (i :: q, d)

/-- `MPTxDict.clear` executed when `_get_time()` returns `now`
(`_life_time = 15`; `max(now - 15, 0)` is Nat subtraction). -/
def MPTxDict.clear (st : MPTxDict) (now : Nat) : MPTxDict :=
  if st.queue.length = 0 then st
  else
    let r := clearLoop st.queue st.dict (now - 15)
    ⟨r.2, r.1⟩

/-- One cache operation together with the value `_get_time()` returns while
it runs. -/
inductive MPOp where
  | add (sig : String) (tx : Nat) (exc : Option String)
  | clear
deriving DecidableEq

def MPTxDict.step (st : MPTxDict) (op : MPOp × Nat) : MPTxDict :=
  match op.1 with
  | .add sig tx exc => st.add sig tx exc op.2
  | .clear => st.clear op.2

/-- Run a trace of operations from the freshly-constructed cache. -/
def MPTxDict.run (ops : List (MPOp × Nat)) : MPTxDict :=
  ops.foldl MPTxDict.step emptyMPTxDict

/-- `op` is an `add` of signature `sig`. -/
def isAddOf (sig : String) (op : MPOp × Nat) : Bool :=
  match op.1 with
  | .add s _ _ => s = sig
  | .clear => false

/-- No operation in the trace adds signature `sig`. -/
def noAddOf (sig : String) (ops : List (MPOp × Nat)) : Prop :=
  ∀ op ∈ ops, isAddOf sig op = false

instance (sig : String) (ops : List (MPOp × Nat)) : Decidable (noAddOf sig ops) := by
  unfold noAddOf; infer_instance

/-- The signatures of the `add` operations of a trace, in order. -/
def addSigsOf (ops : List (MPOp × Nat)) : List String :=
  ops.filterMap (fun op => match op.1 with | .add s _ _ => some s | .clear => none)

lemma dictLookup_append (l1 l2 : List (String × MPItem)) (k : String) :
    dictLookup (l1 ++ l2) k
      = match dictLookup l1 k with
        | some v => some v
        | none => dictLookup l2 k := by
  induction l1 with
  | nil => rfl
  | cons p t ih => by_cases h : p.1 = k <;> simp [dictLookup, h, ih]

lemma dictLookup_filter_self (d : List (String × MPItem)) (k : String) :
    dictLookup (d.filter (fun p => p.1 ≠ k)) k = none := by
  induction d with
  | nil => rfl
  | cons p t ih =>
    simp only [List.filter_cons]
    by_cases h : p.1 = k
    · rw [if_neg (by simp [h])]
      exact ih
    · rw [if_pos (by simp [h]), dictLookup, if_neg h]
      exact ih

lemma dictLookup_filter_ne {k k' : String} (hne : k' ≠ k)
    (d : List (String × MPItem)) :
    dictLookup (d.filter (fun p => p.1 ≠ k)) k' = dictLookup d k' := by
  induction d with
  | nil => rfl
  | cons p t ih =>
    simp only [List.filter_cons]
    by_cases h : p.1 = k
    · have hp : ¬ (p.1 = k') := by rw [h]; exact fun hh => hne hh.symm
      rw [if_neg (by simp [h]), dictLookup, if_neg hp]
      exact ih
    · rw [if_pos (by simp [h]), dictLookup, dictLookup]
      by_cases h2 : p.1 = k'
      · rw [if_pos h2, if_pos h2]
      · rw [if_neg h2, if_neg h2]
        exact ih

lemma dictLookup_filter_none {d : List (String × MPItem)} {k : String}
    (h : dictLookup d k = none) (p : String × MPItem → Bool) :
    dictLookup (d.filter p) k = none := by
  induction d with
  | nil => rfl
  | cons q t ih =>
    by_cases hq : q.1 = k
    · rw [dictLookup, if_pos hq] at h
      exact absurd h (by simp)
    · rw [dictLookup, if_neg hq] at h
      simp only [List.filter_cons]
      by_cases hp : p q = true
      · rw [if_pos hp, dictLookup, if_neg hq]
        exact ih h
      · rw [if_neg hp]
        exact ih h

lemma dictLookup_insert_self (d : List (String × MPItem)) (k : String) (v : MPItem) :
    dictLookup (dictInsert d k v) k = some v := by
  rw [dictInsert, dictLookup_append, dictLookup_filter_self]
  simp [dictLookup]

lemma dictLookup_insert_ne {k k' : String} (hne : k' ≠ k)
    (d : List (String × MPItem)) (v : MPItem) :
    dictLookup (dictInsert d k v) k' = dictLookup d k' := by
  rw [dictInsert, dictLookup_append, dictLookup_filter_ne hne]
  cases h : dictLookup d k' with
  | some v' => rfl
  | none =>
    rw [dictLookup, if_neg (fun hh : k = k' => hne hh.symm)]
    rfl

lemma clearLoop_queue_subset :
    ∀ (q : List MPItem) (d : List (String × MPItem)) (c : Nat),
      ∀ i ∈ (clearLoop q d c).1, i ∈ q := by
  intro q
  induction q with
  | nil => intro d c i hi; simp [clearLoop] at hi
  | cons j t ih =>
    intro d c i hi
    rw [clearLoop] at hi
    by_cases h : j.last_time < c
    · rw [if_pos h] at hi
      exact List.mem_cons_of_mem j (ih _ _ i hi)
    · rw [if_neg h] at hi
      exact hi

lemma clearLoop_preserves_none {sig : String} :
    ∀ (q : List MPItem) (d : List (String × MPItem)) (c : Nat),
      dictLookup d sig = none → dictLookup (clearLoop q d c).2 sig = none := by
  intro q
  induction q with
  | nil => intro d c h; exact h
  | cons j t ih =>
    intro d c h
    rw [clearLoop]
    by_cases hj : j.last_time < c
    · rw [if_pos hj]
      exact ih _ _ (dictLookup_filter_none h _)
    · rw [if_neg hj]
      exact h

lemma clearLoop_lookup_preserved {sig : String} {item0 : MPItem} :
    ∀ (q : List MPItem) (d : List (String × MPItem)) (c : Nat),
      (∀ i ∈ q, i.neon_sig = sig → ¬ i.last_time < c) →
      dictLookup d sig = some item0 →
      dictLookup (clearLoop q d c).2 sig = some item0 := by
  intro q
  induction q with
  | nil => intro d c _ h; exact h
  | cons j t ih =>
    intro d c hq h
    rw [clearLoop]
    by_cases hj : j.last_time < c
    · rw [if_pos hj]
      have hjne : sig ≠ j.neon_sig := by
        intro he
        exact hq j (List.mem_cons_self j t) he.symm hj
      refine ih _ _ (fun i hi he => hq i (List.mem_cons_of_mem j hi) he) ?_
      rw [dictPop, dictLookup_filter_ne hjne]
      exact h
    · rw [if_neg hj]
      exact h

lemma dictLookup_pop_self (d : List (String × MPItem)) (k : String) :
    dictLookup (dictPop d k) k = none :=
  dictLookup_filter_self d k

lemma run_noSig_aux {sig : String} :
    ∀ (ops : List (MPOp × Nat)) (st : MPTxDict),
      noAddOf sig ops →
      dictLookup st.dict sig = none →
      (∀ i ∈ st.queue, i.neon_sig ≠ sig) →
      dictLookup (ops.foldl MPTxDict.step st).dict sig = none ∧
      (∀ i ∈ (ops.foldl MPTxDict.step st).queue, i.neon_sig ≠ sig) := by
  intro ops
  induction ops with
  | nil => intro st _ h1 h2; exact ⟨h1, h2⟩
  | cons op rest ih =>
    intro st hno h1 h2
    have hnoRest : noAddOf sig rest := fun o ho => hno o (List.mem_cons_of_mem op ho)
    have hopFalse : isAddOf sig op = false := hno op (List.mem_cons_self op rest)
    rw [List.foldl_cons]
    obtain ⟨o, t⟩ := op
    cases o with
    | add s tx exc =>
      have hsne : s ≠ sig := by simpa [isAddOf] using hopFalse
      refine ih _ hnoRest ?_ ?_
      · show dictLookup (dictInsert st.dict s _) sig = none
        rw [dictLookup_insert_ne (fun hh => hsne hh.symm), h1]
      · intro i hi
        rcases List.mem_append.mp hi with h | h
        · exact h2 i h
        · simp only [List.mem_singleton] at h
          subst h
          exact hsne
    | clear =>
      refine ih _ hnoRest ?_ ?_
      · show dictLookup (st.clear t).dict sig = none
        rw [MPTxDict.clear]
        by_cases hq : st.queue.length = 0
        · rw [if_pos hq]; exact h1
        · rw [if_neg hq]
          exact clearLoop_preserves_none _ _ _ h1
      · intro i hi
        revert hi
        show i ∈ (st.clear t).queue → _
        rw [MPTxDict.clear]
        by_cases hq : st.queue.length = 0
        · rw [if_pos hq]; exact fun hi => h2 i hi
        · rw [if_neg hq]
          intro hi
          exact h2 i (clearLoop_queue_subset _ _ _ i hi)

lemma run_keeps_item_aux {sig : String} {item0 : MPItem} :
    ∀ (ops : List (MPOp × Nat)) (st : MPTxDict),
      noAddOf sig ops →
      (∀ op ∈ ops, op.2 ≤ item0.last_time + 15) →
      dictLookup st.dict sig = some item0 →
      (∀ i ∈ st.queue, i.neon_sig = sig → i = item0) →
      dictLookup (ops.foldl MPTxDict.step st).dict sig = some item0 := by
  intro ops
  induction ops with
  | nil => intro st _ _ h1 _; exact h1
  | cons op rest ih =>
    intro st hno htime h1 h2
    have hnoRest : noAddOf sig rest := fun o ho => hno o (List.mem_cons_of_mem op ho)
    have htimeRest : ∀ op' ∈ rest, op'.2 ≤ item0.last_time + 15 :=
      fun o ho => htime o (List.mem_cons_of_mem op ho)
    have hopFalse : isAddOf sig op = false := hno op (List.mem_cons_self op rest)
    rw [List.foldl_cons]
    obtain ⟨o, t⟩ := op
    cases o with
    | add s tx exc =>
      have hsne : s ≠ sig := by simpa [isAddOf] using hopFalse
      refine ih _ hnoRest htimeRest ?_ ?_
      · show dictLookup (dictInsert st.dict s _) sig = some item0
        rw [dictLookup_insert_ne (fun hh => hsne hh.symm)]
        exact h1
      · intro i hi
        rcases List.mem_append.mp hi with h | h
        · exact h2 i h
        · simp only [List.mem_singleton] at h
          subst h
          intro hh
          exact absurd hh hsne
    | clear =>
      have hcut : ∀ i ∈ st.queue, i.neon_sig = sig → ¬ i.last_time < t - 15 := by
        intro i hi he
        have := h2 i hi he
        subst this
        have ht : t ≤ i.last_time + 15 := htime (MPOp.clear, t) (List.mem_cons_self _ rest)
        omega
      refine ih _ hnoRest htimeRest ?_ ?_
      · show dictLookup (st.clear t).dict sig = some item0
        rw [MPTxDict.clear]
        by_cases hq : st.queue.length = 0
        · rw [if_pos hq]; exact h1
        · rw [if_neg hq]
          exact clearLoop_lookup_preserved _ _ _ hcut h1
      · intro i
        show i ∈ (st.clear t).queue → _
        rw [MPTxDict.clear]
        by_cases hq : st.queue.length = 0
        · rw [if_pos hq]; exact h2 i
        · rw [if_neg hq]
          intro hi
          exact h2 i (clearLoop_queue_subset _ _ _ i hi)

lemma clearLoop_pops_item {sig : String} {item0 : MPItem} (h0 : item0.neon_sig = sig) :
    ∀ (q1 q2 : List MPItem) (d : List (String × MPItem)) (c : Nat),
      (∀ j ∈ q1, j.last_time < c) → item0.last_time < c →
      dictLookup (clearLoop (q1 ++ item0 :: q2) d c).2 sig = none := by
  intro q1
  induction q1 with
  | nil =>
    intro q2 d c _ hi
    rw [List.nil_append, clearLoop, if_pos hi]
    refine clearLoop_preserves_none q2 _ c ?_
    rw [h0]
    exact dictLookup_pop_self d sig
  | cons j t ih =>
    intro q2 d c hq1 hi
    rw [List.cons_append, clearLoop, if_pos (hq1 j (List.mem_cons_self j t))]
    exact ih q2 _ c (fun x hx => hq1 x (List.mem_cons_of_mem j hx)) hi

lemma clearLoop_K2_step {sig : String} {item0 : MPItem} (h0 : item0.neon_sig = sig) :
    ∀ (q1 q2 : List MPItem) (d : List (String × MPItem)) (c : Nat),
      dictLookup d sig = some item0 →
      (∀ j ∈ q1, j.neon_sig ≠ sig) → (∀ j ∈ q2, j.neon_sig ≠ sig) →
      (dictLookup (clearLoop (q1 ++ item0 :: q2) d c).2 sig = none ∧
        ∀ i ∈ (clearLoop (q1 ++ item0 :: q2) d c).1, i.neon_sig ≠ sig) ∨
      (dictLookup (clearLoop (q1 ++ item0 :: q2) d c).2 sig = some item0 ∧
        ∃ q1', (clearLoop (q1 ++ item0 :: q2) d c).1 = q1' ++ item0 :: q2 ∧
          ∀ j ∈ q1', j ∈ q1) := by
  intro q1
  induction q1 with
  | nil =>
    intro q2 d c hd _ hq2
    rw [List.nil_append, clearLoop]
    by_cases hi : item0.last_time < c
    · rw [if_pos hi]
      left
      have hnone : dictLookup (dictPop d item0.neon_sig) sig = none := by
        rw [h0]; exact dictLookup_pop_self d sig
      exact ⟨clearLoop_preserves_none q2 _ c hnone,
        fun i hi' => hq2 i (clearLoop_queue_subset _ _ _ i hi')⟩
    · rw [if_neg hi]
      right
      exact ⟨hd, [], rfl, by simp⟩
  | cons j t ih =>
    intro q2 d c hd hq1 hq2
    have hjne : j.neon_sig ≠ sig := hq1 j (List.mem_cons_self j t)
    rw [List.cons_append, clearLoop]
    by_cases hj : j.last_time < c
    · rw [if_pos hj]
      have hd' : dictLookup (dictPop d j.neon_sig) sig = some item0 := by
        rw [dictPop, dictLookup_filter_ne (fun hh => hjne hh.symm)]
        exact hd
      rcases ih q2 _ c hd' (fun x hx => hq1 x (List.mem_cons_of_mem j hx)) hq2 with
        hl | ⟨hlk, q1', heq, hsub⟩
      · exact Or.inl hl
      · exact Or.inr ⟨hlk, q1', heq,
          fun x hx => List.mem_cons_of_mem j (hsub x hx)⟩
    · rw [if_neg hj]
      right
      exact ⟨hd, j :: t, rfl, fun x hx => hx⟩

lemma run_queue_time_bound {T : Nat} :
    ∀ (ops : List (MPOp × Nat)) (st : MPTxDict),
      (∀ op ∈ ops, op.2 ≤ T) →
      (∀ i ∈ st.queue, i.last_time ≤ T) →
      ∀ i ∈ (ops.foldl MPTxDict.step st).queue, i.last_time ≤ T := by
  intro ops
  induction ops with
  | nil => intro st _ h i hi; exact h i hi
  | cons op rest ih =>
    intro st htime h
    rw [List.foldl_cons]
    have htimeRest : ∀ o ∈ rest, o.2 ≤ T := fun o ho => htime o (List.mem_cons_of_mem op ho)
    obtain ⟨o, t⟩ := op
    cases o with
    | add s tx exc =>
      refine ih _ htimeRest ?_
      intro i hi
      rcases List.mem_append.mp hi with hh | hh
      · exact h i hh
      · simp only [List.mem_singleton] at hh
        subst hh
        exact htime (MPOp.add s tx exc, t) (List.mem_cons_self _ rest)
    | clear =>
      refine ih _ htimeRest ?_
      intro i
      show i ∈ (st.clear t).queue → _
      rw [MPTxDict.clear]
      by_cases hq : st.queue.length = 0
      · rw [if_pos hq]; exact h i
      · rw [if_neg hq]
        intro hi
        exact h i (clearLoop_queue_subset _ _ _ i hi)

/-- Invariant for the expiry proof: the cache either no longer holds `sig` at
all, or holds exactly `item0` for it, queued after items no younger than
`item0`. -/
def KInv (sig : String) (item0 : MPItem) (st : MPTxDict) : Prop :=
  (dictLookup st.dict sig = none ∧ ∀ i ∈ st.queue, i.neon_sig ≠ sig) ∨
  (dictLookup st.dict sig = some item0 ∧
    ∃ q1 q2, st.queue = q1 ++ item0 :: q2 ∧
      (∀ j ∈ q1, j.last_time ≤ item0.last_time ∧ j.neon_sig ≠ sig) ∧
      (∀ j ∈ q2, j.neon_sig ≠ sig))

lemma run_partB_aux {sig : String} {item0 : MPItem} (h0 : item0.neon_sig = sig) :
    ∀ (ops : List (MPOp × Nat)) (st : MPTxDict),
      noAddOf sig ops → KInv sig item0 st →
      KInv sig item0 (ops.foldl MPTxDict.step st) := by
  intro ops
  induction ops with
  | nil => intro st _ h; exact h
  | cons op rest ih =>
    intro st hno hK
    have hnoRest : noAddOf sig rest := fun o ho => hno o (List.mem_cons_of_mem op ho)
    have hopFalse : isAddOf sig op = false := hno op (List.mem_cons_self op rest)
    rw [List.foldl_cons]
    refine ih _ hnoRest ?_
    obtain ⟨o, t⟩ := op
    cases o with
    | add s tx exc =>
      have hsne : s ≠ sig := by simpa [isAddOf] using hopFalse
      rcases hK with ⟨hl, hq⟩ | ⟨hl, q1, q2, heq, hq1, hq2⟩
      · left
        refine ⟨?_, ?_⟩
        · show dictLookup (dictInsert st.dict s _) sig = none
          rw [dictLookup_insert_ne (fun hh => hsne hh.symm)]
          exact hl
        · intro i hi
          rcases List.mem_append.mp hi with h | h
          · exact hq i h
          · simp only [List.mem_singleton] at h
            subst h
            exact hsne
      · right
        refine ⟨?_, q1, q2 ++ [⟨t, s, tx, exc⟩], ?_, hq1, ?_⟩
        · show dictLookup (dictInsert st.dict s _) sig = some item0
          rw [dictLookup_insert_ne (fun hh => hsne hh.symm)]
          exact hl
        · show st.queue ++ [⟨t, s, tx, exc⟩] = _
          rw [heq]
          simp
        · intro j hj
          rcases List.mem_append.mp hj with h | h
          · exact hq2 j h
          · simp only [List.mem_singleton] at h
            subst h
            exact hsne
    | clear =>
      rcases hK with ⟨hl, hq⟩ | ⟨hl, q1, q2, heq, hq1, hq2⟩
      · left
        constructor
        · show dictLookup (st.clear t).dict sig = none
          rw [MPTxDict.clear]
          by_cases hlen : st.queue.length = 0
          · rw [if_pos hlen]; exact hl
          · rw [if_neg hlen]
            exact clearLoop_preserves_none _ _ _ hl
        · intro i
          show i ∈ (st.clear t).queue → _
          rw [MPTxDict.clear]
          by_cases hlen : st.queue.length = 0
          · rw [if_pos hlen]; exact hq i
          · rw [if_neg hlen]
            intro hi
            exact hq i (clearLoop_queue_subset _ _ _ i hi)
      · have hlen : ¬ st.queue.length = 0 := by
          rw [heq]
          simp
        have hstep : st.clear t = ⟨(clearLoop st.queue st.dict (t - 15)).2,
            (clearLoop st.queue st.dict (t - 15)).1⟩ := by
          rw [MPTxDict.clear, if_neg hlen]
        show KInv sig item0 (st.clear t)
        rw [hstep]
        have hres := clearLoop_K2_step h0 q1 q2 st.dict (t - 15) hl
          (fun j hj => (hq1 j hj).2) hq2
        rw [← heq] at hres
        rcases hres with ⟨ha, hb⟩ | ⟨ha, q1', heq', hsub⟩
        · exact Or.inl ⟨ha, hb⟩
        · right
          exact ⟨ha, q1', q2, heq', fun j hj => hq1 j (hsub j hj), hq2⟩

/-- C6 (confirmed): an item added at time `t0` (and not re-added) is
returned by `get` — the stored transaction, or its recorded error — after
any further adds/clears whose times are at most `t0 + 15` (`TTL = 15 s`,
covering every read in `[t0, t0+TTL)`); and after a `clear` executed at any
time strictly later than `t0 + 15` the item is absent, so `get` returns
`None`.  Operations before the add carry times ≤ `t0` because `_get_time` is
non-decreasing. -/
theorem spec_c6_cache_ttl :
    (∀ (pre post : List (MPOp × Nat)) (sig : String) (tx : Nat)
        (exc : Option String) (t0 : Nat),
      noAddOf sig pre → noAddOf sig post →
      (∀ op ∈ post, op.2 ≤ t0 + 15) →
      (MPTxDict.run (pre ++ (MPOp.add sig tx exc, t0) :: post)).get sig
        = some (match exc with | some e => Sum.inl e | none => Sum.inr tx)) ∧
    (∀ (pre post : List (MPOp × Nat)) (sig : String) (tx : Nat)
        (exc : Option String) (t0 tc : Nat),
      noAddOf sig pre → noAddOf sig post →
      (∀ op ∈ pre, op.2 ≤ t0) → t0 + 15 < tc →
      (MPTxDict.run
          (pre ++ (MPOp.add sig tx exc, t0) :: (post ++ [(MPOp.clear, tc)]))).get sig
        = none) := by
  constructor
  · intro pre post sig tx exc t0 hpre hpost htimes
    rw [MPTxDict.run, List.foldl_append, List.foldl_cons]
    have hpre' := run_noSig_aux pre emptyMPTxDict hpre rfl
      (by intro i hi; simp [emptyMPTxDict] at hi)
    set st0 := pre.foldl MPTxDict.step emptyMPTxDict with hst0
    have hstep : MPTxDict.step st0 (MPOp.add sig tx exc, t0)
        = ⟨dictInsert st0.dict sig ⟨t0, sig, tx, exc⟩,
           st0.queue ++ [⟨t0, sig, tx, exc⟩]⟩ := rfl
    rw [hstep]
    have hl : dictLookup (dictInsert st0.dict sig ⟨t0, sig, tx, exc⟩) sig
        = some ⟨t0, sig, tx, exc⟩ := dictLookup_insert_self _ _ _
    have hq : ∀ i ∈ st0.queue ++ [(⟨t0, sig, tx, exc⟩ : MPItem)],
        i.neon_sig = sig → i = ⟨t0, sig, tx, exc⟩ := by
      intro i hi he
      rcases List.mem_append.mp hi with h | h
      · exact absurd he (hpre'.2 i h)
      · simpa using h
    have hfin := @run_keeps_item_aux sig ⟨t0, sig, tx, exc⟩ post
      ⟨dictInsert st0.dict sig ⟨t0, sig, tx, exc⟩, st0.queue ++ [⟨t0, sig, tx, exc⟩]⟩
      hpost htimes hl hq
    simp only [MPTxDict.get, hfin]
    cases exc <;> rfl
  · intro pre post sig tx exc t0 tc hpre hpost hpretime htc
    rw [MPTxDict.run, List.foldl_append, List.foldl_cons, List.foldl_append,
      List.foldl_cons, List.foldl_nil]
    have hpre' := run_noSig_aux pre emptyMPTxDict hpre rfl
      (by intro i hi; simp [emptyMPTxDict] at hi)
    set st0 := pre.foldl MPTxDict.step emptyMPTxDict with hst0
    have hqt : ∀ i ∈ st0.queue, i.last_time ≤ t0 :=
      run_queue_time_bound pre emptyMPTxDict hpretime
        (by intro i hi; simp [emptyMPTxDict] at hi)
    have hK1 : KInv sig ⟨t0, sig, tx, exc⟩ (MPTxDict.step st0 (MPOp.add sig tx exc, t0)) := by
      right
      refine ⟨dictLookup_insert_self _ _ _, st0.queue, [], rfl, ?_, by simp⟩
      intro j hj
      exact ⟨hqt j hj, hpre'.2 j hj⟩
    have hK2 := @run_partB_aux sig ⟨t0, sig, tx, exc⟩ rfl post _ hpost hK1
    set st2 := post.foldl MPTxDict.step (MPTxDict.step st0 (MPOp.add sig tx exc, t0)) with hst2
    show (st2.clear tc).get sig = none
    rcases hK2 with ⟨hl, _⟩ | ⟨hl, q1, q2, heq, hq1, hq2⟩
    · have hnone : dictLookup (st2.clear tc).dict sig = none := by
        rw [MPTxDict.clear]
        by_cases hlen : st2.queue.length = 0
        · rw [if_pos hlen]; exact hl
        · rw [if_neg hlen]
          exact clearLoop_preserves_none _ _ _ hl
      simp only [MPTxDict.get, hnone]
    · have hlen : ¬ st2.queue.length = 0 := by
        rw [heq]; simp
      have hnone : dictLookup (st2.clear tc).dict sig = none := by
        rw [MPTxDict.clear, if_neg hlen]
        show dictLookup (clearLoop st2.queue st2.dict (tc - 15)).2 sig = none
        rw [heq]
        refine clearLoop_pops_item rfl q1 q2 st2.dict (tc - 15) ?_ ?_
        · intro j hj
          have := (hq1 j hj).1
          simp only [MPItem.last_time] at this ⊢
          omega
        · show t0 < tc - 15
          omega
      simp only [MPTxDict.get, hnone]

/-- Witness for C6: a transaction added at `t = 100` is still returned after
a sweep at `t = 110`, and is gone after a sweep at `t = 116`. -/
theorem spec_c6_witness :
    (MPTxDict.run [(MPOp.add "a" 7 none, 100), (MPOp.clear, 110)]).get "a"
      = some (Sum.inr 7) ∧
    (MPTxDict.run [(MPOp.add "a" 7 none, 100), (MPOp.clear, 116)]).get "a" = none :=
  ⟨spec_c6_cache_ttl.1 [] [(MPOp.clear, 110)] "a" 7 none 100
      (by decide) (by decide) (by decide),
   spec_c6_cache_ttl.2 [] [] "a" 7 none 100 116
      (by decide) (by decide) (by decide) (by norm_num)⟩

lemma dictLookup_mem {d : List (String × MPItem)} {k : String} {v : MPItem}
    (h : dictLookup d k = some v) : (k, v) ∈ d := by
  induction d with
  | nil => exact absurd h (by simp [dictLookup])
  | cons p t ih =>
    rw [dictLookup] at h
    by_cases hp : p.1 = k
    · rw [if_pos hp] at h
      obtain ⟨p1, p2⟩ := p
      simp only at hp
      simp only [Option.some.injEq] at h
      subst hp
      subst h
      exact List.mem_cons_self _ _
    · rw [if_neg hp] at h
      exact List.mem_cons_of_mem p (ih h)

lemma clearLoop_map_inv :
    ∀ (q : List MPItem) (c : Nat),
      (q.map (fun i => i.neon_sig)).Nodup →
      ∃ q', clearLoop q (q.map (fun i => (i.neon_sig, i))) c
          = (q', q'.map (fun i => (i.neon_sig, i))) ∧ q' <:+ q := by
  intro q
  induction q with
  | nil => intro c _; exact ⟨[], rfl, List.suffix_refl []⟩
  | cons i t ih =>
    intro c hnd
    simp only [List.map_cons] at hnd ⊢
    obtain ⟨hhead, htail⟩ := List.nodup_cons.mp hnd
    by_cases hi : i.last_time < c
    · rw [clearLoop, if_pos hi]
      have hnotin : ∀ p ∈ t.map (fun j => (j.neon_sig, j)), p.1 ≠ i.neon_sig := by
        intro p hp
        obtain ⟨j, hj, rfl⟩ := List.mem_map.mp hp
        intro he
        exact hhead (he ▸ List.mem_map_of_mem (fun x => x.neon_sig) hj)
      have hpop : dictPop ((i.neon_sig, i) :: t.map (fun j => (j.neon_sig, j))) i.neon_sig
          = t.map (fun j => (j.neon_sig, j)) := by
        rw [dictPop, List.filter_cons, if_neg (by simp)]
        exact List.filter_eq_self.mpr (fun p hp => by simpa using hnotin p hp)
      rw [hpop]
      obtain ⟨q', he, hsuf⟩ := ih c htail
      exact ⟨q', he, hsuf.trans (List.suffix_cons i t)⟩
    · rw [clearLoop, if_neg hi]
      exact ⟨i :: t, rfl, List.suffix_refl _⟩

lemma run_c7_aux :
    ∀ (ops : List (MPOp × Nat)) (st : MPTxDict),
      (addSigsOf ops).Nodup →
      st.dict = st.queue.map (fun i => (i.neon_sig, i)) →
      (st.queue.map (fun i => i.neon_sig)).Nodup →
      (∀ s ∈ st.queue.map (fun i => i.neon_sig), s ∉ addSigsOf ops) →
      (ops.foldl MPTxDict.step st).dict
        = (ops.foldl MPTxDict.step st).queue.map (fun i => (i.neon_sig, i)) ∧
      ((ops.foldl MPTxDict.step st).queue.map (fun i => i.neon_sig)).Nodup := by
  intro ops
  induction ops with
  | nil => intro st _ h1 h2 _; exact ⟨h1, h2⟩
  | cons op rest ih =>
    intro st hnd hdict hqnd hdisj
    rw [List.foldl_cons]
    obtain ⟨o, t⟩ := op
    cases o with
    | add s tx exc =>
      have hsigs : addSigsOf ((MPOp.add s tx exc, t) :: rest) = s :: addSigsOf rest := by
        simp [addSigsOf]
      rw [hsigs] at hnd hdisj
      obtain ⟨hfresh, hndRest⟩ := List.nodup_cons.mp hnd
      have hsq : s ∉ st.queue.map (fun i => i.neon_sig) := by
        intro hmem
        exact hdisj s hmem (List.mem_cons_self s _)
      have hkeys : ∀ p ∈ st.dict, p.1 ≠ s := by
        intro p hp
        rw [hdict] at hp
        obtain ⟨j, hj, rfl⟩ := List.mem_map.mp hp
        intro he
        exact hsq (he ▸ List.mem_map_of_mem (fun x => x.neon_sig) hj)
      have hins : dictInsert st.dict s ⟨t, s, tx, exc⟩
          = (st.queue ++ [(⟨t, s, tx, exc⟩ : MPItem)]).map (fun i => (i.neon_sig, i)) := by
        rw [dictInsert, List.filter_eq_self.mpr (fun p hp => by simpa using hkeys p hp),
          hdict, List.map_append]
        rfl
      have hstep : MPTxDict.step st (MPOp.add s tx exc, t)
          = ⟨dictInsert st.dict s ⟨t, s, tx, exc⟩,
             st.queue ++ [(⟨t, s, tx, exc⟩ : MPItem)]⟩ := rfl
      rw [hstep]
      refine ih _ hndRest hins ?_ ?_
      · rw [List.map_append, List.nodup_append]
        refine ⟨hqnd, by simp, ?_⟩
        intro x hx
        simp only [List.map_cons, List.map_nil, List.mem_singleton]
        intro he
        subst he
        exact hsq hx
      · intro x hx
        rw [List.map_append] at hx
        rcases List.mem_append.mp hx with h | h
        · exact fun hmem => hdisj x h (List.mem_cons_of_mem _ hmem)
        · simp only [List.map_cons, List.map_nil, List.mem_singleton] at h
          subst h
          exact hfresh
    | clear =>
      have hsigs : addSigsOf ((MPOp.clear, t) :: rest) = addSigsOf rest := by
        simp [addSigsOf]
      rw [hsigs] at hnd hdisj
      by_cases hlen : st.queue.length = 0
      · have hstep : MPTxDict.step st (MPOp.clear, t) = st := by
          show st.clear t = st
          rw [MPTxDict.clear, if_pos hlen]
        rw [hstep]
        exact ih _ hnd hdict hqnd hdisj
      · obtain ⟨q', he, hsuf⟩ := clearLoop_map_inv st.queue (t - 15) hqnd
        have hstep : MPTxDict.step st (MPOp.clear, t)
            = ⟨q'.map (fun i => (i.neon_sig, i)), q'⟩ := by
          show st.clear t = _
          rw [MPTxDict.clear, if_neg hlen, hdict, he]
        rw [hstep]
        have hsub : (q'.map (fun i => i.neon_sig)).Sublist (st.queue.map (fun i => i.neon_sig)) :=
          hsuf.sublist.map _
        refine ih _ hnd rfl (hqnd.sublist hsub) ?_
        intro x hx
        exact hdisj x (hsub.mem hx)

/-- C7 (amended): after any sequence of adds and clears in which no
signature is added twice, the signature map and the expiry deque hold
exactly the same items (the map IS the deque, keyed by signature), and any
item reachable through the map is present in the deque.  With a repeated
signature the two containers diverge — see the counterexample — so the
claim's unconditional set equality is false. -/
theorem spec_c7_map_queue_sync :
    ∀ ops : List (MPOp × Nat), (addSigsOf ops).Nodup →
      (MPTxDict.run ops).dict
        = (MPTxDict.run ops).queue.map (fun i => (i.neon_sig, i)) ∧
      (∀ (sig : String) (it : MPItem),
        dictLookup (MPTxDict.run ops).dict sig = some it →
          it ∈ (MPTxDict.run ops).queue) := by
  intro ops hnd
  have h := run_c7_aux ops emptyMPTxDict hnd rfl (by simp [emptyMPTxDict])
    (by intro x hx; simp [emptyMPTxDict] at hx)
  have hrun : MPTxDict.run ops = ops.foldl MPTxDict.step emptyMPTxDict := rfl
  rw [hrun]
  refine ⟨h.1, ?_⟩
  intro sig it hlook
  have hmem := dictLookup_mem hlook
  rw [h.1] at hmem
  obtain ⟨j, hj, hje⟩ := List.mem_map.mp hmem
  have hit : j = it := (Prod.ext_iff.mp hje).2
  exact hit ▸ hj

/-- C7 counterexample: adding the same signature twice (with different
payloads) puts two items in the deque while the map keeps only the newer
one, so the map and the deque do NOT contain the same set of items. -/
theorem spec_c7_desync_on_repeated_sig :
    (⟨0, "s", 1, none⟩ : MPItem) ∈
      (MPTxDict.run [(MPOp.add "s" 1 none, 0), (MPOp.add "s" 2 none, 0)]).queue ∧
    (⟨0, "s", 1, none⟩ : MPItem) ∉
      ((MPTxDict.run [(MPOp.add "s" 1 none, 0), (MPOp.add "s" 2 none, 0)]).dict.map
        Prod.snd) := by
  decide

/-- Witness for C7: a distinct-signature trace with an expiring sweep. -/
theorem spec_c7_witness :
    (MPTxDict.run [(MPOp.add "a" 1 none, 0), (MPOp.clear, 20), (MPOp.add "b" 2 none, 21)]).dict
      = (MPTxDict.run
          [(MPOp.add "a" 1 none, 0), (MPOp.clear, 20), (MPOp.add "b" 2 none, 21)]).queue.map
          (fun i => (i.neon_sig, i)) :=
  (spec_c7_map_queue_sync
    [(MPOp.add "a" 1 none, 0), (MPOp.clear, 20), (MPOp.add "b" 2 none, 21)] (by decide)).1

/-! ## Block JSON shape (`solana_rest_api.py`: `getBlockBySlot`)

Hashes are carried as the already-hex-decoded strings (`base58.b58decode(..)
.hex()`), transactions and receipt lookups are supplied by a database
oracle, and `hex(n)` is `pyHexStr`. -/

/-- The Solana block info consumed by `getBlockBySlot`. -/
structure SolanaBlockInfo where
  blockhash : String
  previousBlockhash : String
  blockTime : Nat
  signatures : List String

/-- A row of `get_eth_trx_sig_by_signature`. -/
structure EthTrxRec where
  idx : Nat
  eth : String
deriving DecidableEq

/-- A transactions-list entry: the bare hash (`full = false`) or the full
transaction object with its assigned `transactionIndex` (`full = true`,
object abstracted). -/
inductive TrxEntry where
  | hash (h : String)
  | full (obj : Nat) (idx : Nat)
deriving DecidableEq

/-- The block JSON object built by `getBlockBySlot`. -/
structure EthBlockJson where
  gasUsed : String
  hash : String
  number : String
  parentHash : String
  timestamp : String
  transactions : List TrxEntry
  logsBloom : String
  gasLimit : String
deriving DecidableEq

/-- The database/RPC collaborators of `getBlockBySlot` and the two
`eth_getBlockBy*` methods. -/
structure RestDB where
  get_block_info : Int → Option SolanaBlockInfo
  get_eth_trx_sig : String → Option EthTrxRec
  get_receipt_gasUsed : String → Option Nat
  get_tx_obj : String → Option Nat
  get_slot_by_hash : String → Option Int
  get_slot_by_number : Int → Option Int

/-- `hex(n)` for a natural number. -/
def pyHexStr (n : Nat) : String := "0x" ++ String.mk (pyHex n)

/-- `hex(n)` for a Python integer. -/
def pyHexInt (n : Int) : String :=
  if n < 0 then "-0x" ++ String.mk (pyHex (-n).toNat) else "0x" ++ String.mk (pyHex n.toNat)

/-- One iteration of the signature loop of `getBlockBySlot`; the accumulator
is `(transactions, gasUsed, trx_index)`. -/
def processSignature (db : RestDB) (full : Bool)
    (acc : List TrxEntry × Nat × Nat) (sig : String) : List TrxEntry × Nat × Nat :=
  match db.get_eth_trx_sig sig with
  | none => acc
  | some r =>
    if r.idx = 0 then
      let gas := match db.get_receipt_gasUsed r.eth with
                 | some g => acc.2.1 + g
                 | none => acc.2.1
      if full then
        match db.get_tx_obj r.eth with
        | some obj => (acc.1 ++ [TrxEntry.full obj acc.2.2], gas, acc.2.2 + 1)
        | none => (acc.1, gas, acc.2.2)
      else (acc.1 ++ [TrxEntry.hash r.eth], gas, acc.2.2)
    else acc

/-- `EthereumModel.getBlockBySlot`. -/
def getBlockBySlot (db : RestDB) (slot : Int) (full : Bool) : Option EthBlockJson :=
  match db.get_block_info slot with
  | none => none
  | some bi =>
    let r := bi.signatures.foldl (processSignature db full) ([], 0, 0)
    some
      { gasUsed := pyHexStr r.2.1
        hash := "0x" ++ bi.blockhash
        number := pyHexInt slot
        parentHash := "0x" ++ bi.previousBlockhash
        timestamp := pyHexStr bi.blockTime
        transactions := r.1
        logsBloom := "0x" ++ String.mk (List.replicate 512 '0')
        gasLimit := "0x6691b7" }

/-- ASCII `str.lower` (block hashes are ASCII hex). -/
def strLower (s : String) : String :=
  String.mk (s.data.map (fun c => if 'A' ≤ c ∧ c ≤ 'Z' then Char.ofNat (c.toNat + 32) else c))

/-- `EthereumModel.eth_getBlockByHash`. -/
def eth_getBlockByHash (db : RestDB) (block_hash : String) (full : Bool) :
    Option EthBlockJson :=
  match db.get_slot_by_hash (strLower block_hash) with
  | none => none
  | some slot => getBlockBySlot db slot full

/-- `EthereumModel.eth_getBlockByNumber` after `process_block_tag` has
resolved the tag to a number. -/
def eth_getBlockByNumber (db : RestDB) (block_number : Int) (full : Bool) :
    Option EthBlockJson :=
  match db.get_slot_by_number block_number with
  | none => none
  | some slot => getBlockBySlot db slot full

/-- C8 (amended): every block JSON object returned by `getBlockBySlot` — and
hence by `eth_getBlockByHash` and `eth_getBlockByNumber` when a block is
found — carries `gasLimit = "0x6691b7"` and a `logsBloom` of 256 zero bytes
(`"0x"` + 512 `'0'` hex chars; the claim said 128 zero bytes), alongside
`hash`, `number`, `parentHash`, `timestamp`, `transactions` and `gasUsed`
(fields of `EthBlockJson`). -/
theorem spec_c8_block_json_shape :
    (∀ (db : RestDB) (slot : Int) (full : Bool) (ret : EthBlockJson),
      getBlockBySlot db slot full = some ret →
      ret.gasLimit = "0x6691b7" ∧
      ret.logsBloom = "0x" ++ String.mk (List.replicate 512 '0')) ∧
    (∀ (db : RestDB) (h : String) (full : Bool) (ret : EthBlockJson),
      eth_getBlockByHash db h full = some ret →
      ret.gasLimit = "0x6691b7" ∧
      ret.logsBloom = "0x" ++ String.mk (List.replicate 512 '0')) ∧
    (∀ (db : RestDB) (n : Int) (full : Bool) (ret : EthBlockJson),
      eth_getBlockByNumber db n full = some ret →
      ret.gasLimit = "0x6691b7" ∧
      ret.logsBloom = "0x" ++ String.mk (List.replicate 512 '0')) := by
  have hmain : ∀ (db : RestDB) (slot : Int) (full : Bool) (ret : EthBlockJson),
      getBlockBySlot db slot full = some ret →
      ret.gasLimit = "0x6691b7" ∧
      ret.logsBloom = "0x" ++ String.mk (List.replicate 512 '0') := by
    intro db slot full ret h
    rw [getBlockBySlot] at h
    cases hbi : db.get_block_info slot with
    | none => rw [hbi] at h; exact absurd h (by simp)
    | some bi =>
      rw [hbi] at h
      simp only [Option.some.injEq] at h
      subst h
      exact ⟨rfl, rfl⟩
  refine ⟨hmain, ?_, ?_⟩
  · intro db h full ret hret
    rw [eth_getBlockByHash] at hret
    cases hs : db.get_slot_by_hash (strLower h) with
    | none => rw [hs] at hret; exact absurd hret (by simp)
    | some slot =>
      rw [hs] at hret
      exact hmain db slot full ret hret
  · intro db n full ret hret
    rw [eth_getBlockByNumber] at hret
    cases hs : db.get_slot_by_number n with
    | none => rw [hs] at hret; exact absurd hret (by simp)
    | some slot =>
      rw [hs] at hret
      exact hmain db slot full ret hret

/-- A one-block database for the C8 counterexample and witness. -/
def c8db : RestDB :=
  ⟨fun _ => some ⟨"aa", "bb", 0, []⟩, fun _ => none, fun _ => none,
   fun _ => none, fun _ => some 0, fun _ => none⟩

set_option maxRecDepth 4096 in
/-- C8 counterexample: the `logsBloom` written by the code is
`'0x' + '0' * 512`, i.e. 256 zero BYTES (512 hex chars), not the 128 zero
bytes (256 hex chars) stated by the claim. -/
theorem spec_c8_logsbloom_is_256_bytes :
    ((getBlockBySlot c8db 0 false).map (fun r => r.logsBloom))
        = some ("0x" ++ String.mk (List.replicate 512 '0')) ∧
    ((getBlockBySlot c8db 0 false).map (fun r => r.logsBloom))
        ≠ some ("0x" ++ String.mk (List.replicate 256 '0')) ∧
    (String.mk (List.replicate 512 '0')).length = 2 * 256 := by
  refine ⟨rfl, ?_, rfl⟩
  decide

/-- Witness for C8: the amended shape at a concrete found block, through
both `getBlockBySlot` and `eth_getBlockByHash`. -/
theorem spec_c8_witness :
    ((⟨"0x0", "0xaa", "0x0", "0xbb", "0x0", [],
        "0x" ++ String.mk (List.replicate 512 '0'), "0x6691b7"⟩ : EthBlockJson).gasLimit
      = "0x6691b7" ∧
     (⟨"0x0", "0xaa", "0x0", "0xbb", "0x0", [],
        "0x" ++ String.mk (List.replicate 512 '0'), "0x6691b7"⟩ : EthBlockJson).logsBloom
      = "0x" ++ String.mk (List.replicate 512 '0')) ∧
    ((⟨"0x0", "0xaa", "0x0", "0xbb", "0x0", [],
        "0x" ++ String.mk (List.replicate 512 '0'), "0x6691b7"⟩ : EthBlockJson).gasLimit
      = "0x6691b7" ∧
     (⟨"0x0", "0xaa", "0x0", "0xbb", "0x0", [],
        "0x" ++ String.mk (List.replicate 512 '0'), "0x6691b7"⟩ : EthBlockJson).logsBloom
      = "0x" ++ String.mk (List.replicate 512 '0')) :=
  ⟨spec_c8_block_json_shape.1 c8db 0 false _ rfl,
   spec_c8_block_json_shape.2.1 c8db "AA" false _ rfl⟩

/-! ## JSON-RPC dispatch (`solana_rest_api.py`: `process_request`)

Method lookup is `getattr(self.model, request["method"])`.  `getattr` is
modelled as a resolver `String → Option (List Nat → HandlerOutcome)`: `some`
is a resolved attribute (its behaviour on the params abstracted, covering
non-callable attributes too, whose invocation raises `TypeError` — an
`otherExc` outcome), `none` is the `AttributeError` that the generic
`except Exception` arm turns into a `-32000` envelope.  The dispatch
theorems quantify over the resolver, since Python's `getattr` also resolves
attributes `EthereumModel` inherits from `object`; the concrete list
`ethereumModelAttrNames` enumerates the attributes visible in the source
and is used only positively, for names known to resolve. -/

/-- Outcome of invoking a model attribute (the three `except` arms of
`process_request` plus success). -/
inductive HandlerOutcome where
  | ok (v : Nat)
  | solanaTrxError (result : Nat)
  | ethereumError (code : Int) (message : String)
  | otherExc (message : String)
deriving DecidableEq

/-- An error envelope: a structured payload (`err.result` /
`err.getError()`) or a plain `{code, message}` pair. -/
inductive RpcErrorPayload where
  | structured (p : Nat)
  | codeMessage (code : Int) (message : String)
deriving DecidableEq

structure RpcResponse where
  id : Option Nat
  result : Option Nat
  error : Option RpcErrorPayload
deriving DecidableEq

structure RpcRequest where
  id : Option Nat
  method : String
  params : List Nat

/-- `str(AttributeError)` for a missing model attribute (quoting elided). -/
def attributeErrorMessage (m : String) : String :=
  "EthereumModel object has no attribute " ++ m

/-- How `process_request` shapes one handler outcome into a response. -/
def responseOf (id : Option Nat) : HandlerOutcome → RpcResponse
  | .ok v => { id := id, result := some v, error := none }
  | .solanaTrxError r => { id := id, result := none, error := some (.structured r) }
  | .ethereumError c m => { id := id, result := none, error := some (.codeMessage c m) }
  | .otherExc m => { id := id, result := none, error := some (.codeMessage (-32000) m) }

/-- `SolanaProxyPlugin.process_request`: dynamic attribute lookup, then
invocation; a failed lookup is an `AttributeError` handled by the
`except Exception` arm with code `-32000`. -/
def process_request (model : String → Option (List Nat → HandlerOutcome))
    (req : RpcRequest) : RpcResponse :=
  match model req.method with
  | none =>
    { id := req.id, result := none,
      error := some (.codeMessage (-32000) (attributeErrorMessage req.method)) }
  | some h => responseOf req.id (h req.params)

/-- The attributes of `EthereumModel` visible in the source: all of its
function attributes (`__init__` and `__repr__` included, along with the
internal helper `_log_transaction_error`) and the instance attributes
assigned during `__init__` (`neon_config_dict` is assigned by
`neon_config_load`).  Python `getattr` additionally resolves attributes
inherited from `object`, so this list is never used to decide that a name
does NOT resolve. -/
def ethereumModelAttrNames : List String :=
  ["__init__", "get_solana_account", "neon_proxy_version", "web3_clientVersion",
   "eth_chainId", "neon_cli_version", "net_version", "eth_gasPrice",
   "eth_estimateGas", "__repr__", "process_block_tag", "eth_blockNumber",
   "eth_getBalance", "eth_getLogs", "getBlockBySlot", "eth_getStorageAt",
   "eth_getBlockByHash", "eth_getBlockByNumber", "eth_call",
   "eth_getTransactionCount", "eth_getTransactionReceipt",
   "eth_getTransactionByHash", "eth_getCode", "eth_sendTransaction",
   "eth_sendRawTransaction", "_log_transaction_error",
   "signer", "client", "db", "proxy_id", "neon_config_dict"]

/-- A `getattr` resolver for the source-visible attributes: every listed
name resolves (behaviour abstracted by `handlers`).  It is one admissible
resolver — inherited `object` attributes are outside it — which is why
`spec_c10_dynamic_dispatch` states the dispatch clauses for EVERY
resolver. -/
def ethereumModelAttr (handlers : String → List Nat → HandlerOutcome)
    (name : String) : Option (List Nat → HandlerOutcome) :=
  if name ∈ ethereumModelAttrNames then some (handlers name) else none

/-- C10 (confirmed): JSON-RPC method lookup is unrestricted dynamic
attribute access on the model.  For every attribute resolver (`getattr`)
and every request: a method string that resolves to an attribute — the
source-visible `EthereumModel` attributes include the internal helpers
`get_solana_account`, `process_block_tag` and `_log_transaction_error` —
has that attribute invoked with the given params; and a method string that
resolves to no attribute yields an error envelope with code `-32000`
carrying the stringified `AttributeError`, never `-32601`. -/
theorem spec_c10_dynamic_dispatch :
    "get_solana_account" ∈ ethereumModelAttrNames ∧
    "process_block_tag" ∈ ethereumModelAttrNames ∧
    "_log_transaction_error" ∈ ethereumModelAttrNames ∧
    (∀ (model : String → Option (List Nat → HandlerOutcome)) (req : RpcRequest)
        (h : List Nat → HandlerOutcome),
      model req.method = some h →
      process_request model req = responseOf req.id (h req.params)) ∧
    (∀ (model : String → Option (List Nat → HandlerOutcome)) (req : RpcRequest),
      model req.method = none →
      process_request model req
        = { id := req.id, result := none,
            error := some (.codeMessage (-32000) (attributeErrorMessage req.method)) } ∧
      (-32000 : Int) ≠ -32601) ∧
    (∀ (handlers : String → List Nat → HandlerOutcome) (name : String),
      name ∈ ethereumModelAttrNames →
      ethereumModelAttr handlers name = some (handlers name)) := by
  refine ⟨by decide, by decide, by decide, ?_, ?_, ?_⟩
  · intro model req h hm
    rw [process_request, hm]
  · intro model req hm
    refine ⟨?_, by decide⟩
    rw [process_request, hm]
  · intro handlers name hmem
    rw [ethereumModelAttr, if_pos hmem]

/-- Witness for C10: under the source-visible resolver, the internal helper
`_log_transaction_error` is dispatched like any RPC method, and an unknown
method string gets the `-32000` envelope. -/
theorem spec_c10_witness :
    process_request (ethereumModelAttr (fun _ _ => HandlerOutcome.ok 42))
        ⟨some 1, "_log_transaction_error", [7]⟩
      = responseOf (some 1) (HandlerOutcome.ok 42) ∧
    process_request (ethereumModelAttr (fun _ _ => HandlerOutcome.ok 42))
        ⟨some 2, "eth_noSuchMethod", []⟩
      = { id := some 2, result := none,
          error := some (.codeMessage (-32000) (attributeErrorMessage "eth_noSuchMethod")) } ∧
    (-32000 : Int) ≠ -32601 := by
  have hres := spec_c10_dynamic_dispatch.2.2.2.2.2 (fun _ _ => HandlerOutcome.ok 42)
    "_log_transaction_error" (by decide)
  have hnone : ethereumModelAttr (fun _ _ => HandlerOutcome.ok 42) "eth_noSuchMethod"
      = none := by
    rw [ethereumModelAttr, if_neg (by decide)]
  have hneg := spec_c10_dynamic_dispatch.2.2.2.2.1
    (ethereumModelAttr (fun _ _ => HandlerOutcome.ok 42))
    ⟨some 2, "eth_noSuchMethod", []⟩ hnone
  exact ⟨spec_c10_dynamic_dispatch.2.2.2.1
      (ethereumModelAttr (fun _ _ => HandlerOutcome.ok 42))
      ⟨some 1, "_log_transaction_error", [7]⟩ _ hres,
    hneg.1, hneg.2⟩

/-! ## Mempool service request handling (`mempool_service.py`:
`on_data_received`) -/

/-- The service-request variants of the mempool socket. -/
inductive MPRequestKind where
  | sendTransaction
  | getLastTxNonce
  | getTxByHash
  | getGasPrice
deriving DecidableEq

/-- Modelled from the spec: the request objects received by the mempool
service.  Service requests (`SendTransaction`, `GetLastTxNonce(sender)`,
`GetTxByHash(hash)`, `GetGasPrice`) each carry a `req_id` and a request
type; only maintenance requests carry a `command`.  The request classes
(`mempool_api.py`, `neon_py.maintenance_api`) are not under `src/`. -/
inductive MPServiceRequest where
  | mpRequest (req_id : Nat) (reqType : MPRequestKind)
  | maintenanceRequest (req_id : Nat) (command : String)
deriving DecidableEq

/-- Python `request.command`: `none` models the `AttributeError` raised when
the attribute does not exist. -/
def MPServiceRequest.command? : MPServiceRequest → Option String
  | .mpRequest _ _ => none
  | .maintenanceRequest _ c => some c

/-- A value returned over the service socket (`Result(..)` or a pickled
domain object). -/
inductive MPAnswer where
  | result (msg : String)
  | value (v : Nat)
deriving DecidableEq

/-- The outcome of a Python call: a returned value or a raised exception. -/
inductive PyOutcome where
  | ok (r : MPAnswer)
  | raised (e : String)
deriving DecidableEq

/-- `MPService.on_data_received`: the `try` body (dispatch to
`process_mp_request` / `process_maintenance_request`) is abstracted by
`process`.  The `except Exception` arm formats its log message with an
f-string that reads `mp_request.command`; when the attribute is missing
(every service request) that read raises `AttributeError` out of the
handler instead of returning `Result("Request failed")`. -/
def on_data_received (process : MPServiceRequest → PyOutcome)
    (req : MPServiceRequest) : PyOutcome :=
  match process req with
  | .ok r => .ok r
  | .raised _ =>
    match req.command? with
    | some _ => .ok (.result "Request failed")
    | none => .raised "AttributeError: command"

/-- C9 (code bug): a raising maintenance request is converted to
`Result("Request failed")` as the claim states, but a raising SERVICE
request makes the `except` handler itself raise `AttributeError` while
formatting `mp_request.command`, so no `Result("Request failed")` is
returned for it. -/
theorem spec_c9_except_arm_raises_on_service_request :
    on_data_received (fun _ => .raised "boom")
        (MPServiceRequest.maintenanceRequest 1 "suspend")
      = .ok (.result "Request failed") ∧
    on_data_received (fun _ => .raised "boom")
        (MPServiceRequest.mpRequest 2 MPRequestKind.sendTransaction)
      = .raised "AttributeError: command" ∧
    on_data_received (fun _ => .raised "boom")
        (MPServiceRequest.mpRequest 2 MPRequestKind.sendTransaction)
      ≠ .ok (.result "Request failed") := by
  exact ⟨rfl, rfl, by decide⟩

end ProxyModel
